import Mathlib

/-!
Verification development for the `mystl` container library (vector.h, list.h).

The dynamic array `mystl::vector<T>` is embedded as a structure holding the
backing buffer (a `List α` of length `cap`; `new T[cap]` default-fills every
slot), the capacity `cap` and the size `sz`.  Machine indices (`size_t`) are
modelled as `Nat`; the element type is any `α` with `[Inhabited α]`, `default`
standing for the C++ value `T()`.

The doubly-linked list `mystl::list<T>` is embedded with an explicit heap of
nodes addressed by `Nat` (an allocation counter `fresh` supplies new
addresses).  Every pointer dereference, field write and `delete` goes through
the heap; dereferencing a null pointer, touching a freed node, or deleting a
dangling pointer yields `none` (undefined behavior in the C++ source), so the
list operations return `Option`.
-/

namespace mystl

section vectorDefs

variable {α : Type} [Inhabited α]

/-- Embedding of `mystl::vector<T>`: backing buffer `t` (length `cap`),
capacity `cap`, size `sz`. -/
structure vector (α : Type) where
  t : List α
  cap : Nat
  sz : Nat
deriving Repr, DecidableEq

/-- Well-formedness: the buffer really has `cap` slots, `sz ≤ cap`, and the
capacity is positive.  Every constructor of the C++ class allocates
`cap = max(10, 2n) ≥ 10 > 0`, copy construction/assignment adopt the source's
capacity, and no operation ever shrinks `cap`, so every reachable vector
satisfies this predicate. -/
def Vwf (v : vector α) : Prop :=
  v.t.length = v.cap ∧ v.sz ≤ v.cap ∧ 0 < v.cap

instance (v : vector α) : Decidable (Vwf v) := by
  unfold Vwf; infer_instance

namespace vector

/-- `vector(n, val)`: `cap = max(10, 2n)`, buffer `new T[cap]` default-filled,
first `n` slots set to `val`, `sz = n`. -/
def make (n : Nat) (val : α) : vector α :=
  { t := List.replicate n val ++ List.replicate (max 10 (2 * n) - n) default
    cap := max 10 (2 * n)
    sz := n }

/-- `reserve(c)`: if `c > cap`, allocate `new T[c]` (default-filled), copy the
`sz` live slots, adopt the new buffer and capacity; otherwise do nothing. -/
def reserve (v : vector α) (c : Nat) : vector α :=
  if c > v.cap then
    { t := v.t.take v.sz ++ List.replicate (c - v.sz) default
      cap := c
      sz := v.sz }
  else v

/-- `push_back(val)`: grow by doubling (`reserve(cap*2)`) when `sz == cap`,
then `t[sz] = val; ++sz`. -/
def push_back (v : vector α) (val : α) : vector α :=
  let w := if v.sz = v.cap then v.reserve (v.cap * 2) else v
  { w with t := w.t.set w.sz val, sz := w.sz + 1 }

/-- `push_back_incremental(val)`: grow by one (`reserve(cap+1)`) when
`sz == cap`, then `t[sz] = val; ++sz`. -/
def push_back_incremental (v : vector α) (val : α) : vector α :=
  let w := if v.sz = v.cap then v.reserve (v.cap + 1) else v
  { w with t := w.t.set w.sz val, sz := w.sz + 1 }

/-- `pop_back()`: if not `empty()` (i.e. `sz ≠ 0`), reset the last live slot to
the default value and decrement `sz`. -/
def pop_back (v : vector α) : vector α :=
  if v.sz = 0 then v
  else { v with t := v.t.set (v.sz - 1) default, sz := v.sz - 1 }

/-- The body of one iteration of the `insert` loop:
`push_back(t[tmp]); --sz` (the `--indx` is the recursion in `insLoop`). -/
def insertStep (v : vector α) (tmp : Nat) : vector α :=
  let w := v.push_back (v.t.getD tmp default)
  { w with sz := w.sz - 1 }

/-- The `insert` loop `while (i != indx) { --tmp; push_back(t[tmp]); --indx;
--sz; }`.  `tmp` and `indx` coincide at every loop boundary, so the state is
the pair (current vector, current `indx`); the loop exits when `indx` reaches
the insertion position `p` (the iterator argument `i = t + p`).  For `p ≤ sz`
(the defined regime: the C++ pointer `indx` walks down from `t + sz` and stops
exactly at `i`) the recursion below performs the same iterations. -/
def insLoop (v : vector α) (p : Nat) : Nat → vector α
  | 0 => v
  | indx + 1 =>
    if p = indx + 1 then v
    else insLoop (v.insertStep indx) p indx

/-- `insert(i, val)` with iterator `i = t + p`: only acts when `sz < cap`;
runs the shifting loop, then `t[tmp] = val; ++sz` (at loop exit `tmp = p`). -/
def insert (v : vector α) (p : Nat) (val : α) : vector α :=
  if v.sz < v.cap then
    let w := insLoop v p v.sz
    { w with t := w.t.set p val, sz := w.sz + 1 }
  else v

/-- One iteration of the `erase` loop body `t[j] = t[j+1]`, iterated:
`shiftLoop l j k` performs the copies for `j, j+1, ..., j+k-1`. -/
def shiftLoop (l : List α) : Nat → Nat → List α
  | _, 0 => l
  | j, k + 1 => shiftLoop (l.set j (l.getD (j + 1) default)) (j + 1) k

/-- `erase(i)` with iterator `i = t + p`: if not empty, the scan loop recovers
`tmp = p`, then `for (j = p; j < cap - 1; ++j) t[j] = t[j+1];` (that loop runs
`cap - 1 - p` times) and `--sz`. -/
def erase (v : vector α) (p : Nat) : vector α :=
  if v.sz = 0 then v
  else { v with t := shiftLoop v.t p (v.cap - 1 - p), sz := v.sz - 1 }

/-- `pop_back()` applied `k` times. -/
def popK (v : vector α) : Nat → vector α
  | 0 => v
  | k + 1 => popK v.pop_back k

/-- `push_back(val)` applied `k` times. -/
def pushK (v : vector α) (val : α) : Nat → vector α
  | 0 => v
  | k + 1 => pushK (v.push_back val) val k

/-- `clear()`: `for (int i = sz; i > 0; --i) pop_back();`, i.e. `pop_back`
exactly `sz` times. -/
def clear (v : vector α) : vector α := popK v v.sz

/-- `resize(n, val)`: `while (n < sz) pop_back();` — each `pop_back` under the
guard `n < sz` removes exactly one element, so the loop runs `sz - n` times —
then `while (n > sz) push_back(val);`, which runs `n - sz'` times. -/
def resize (v : vector α) (n : Nat) (val : α) : vector α :=
  let w := popK v (v.sz - n)
  pushK w val (n - w.sz)

/-- `at(i)`: `if (i < 0 || i >= sz) throw std::out_of_range(...)` (the check
`i < 0` is vacuous for the unsigned `size_t`), otherwise return `t[i]`. -/
def at' (v : vector α) (i : Nat) : Except String α :=
  if i ≥ v.sz then Except.error "Invalid Array Access"
  else Except.ok (v.t.getD i default)

/-- `at(i)` viewed as a method call: it returns the (unmodified) receiver
together with the result — the C++ body never writes any member. -/
def atS (v : vector α) (i : Nat) : vector α × Except String α :=
  (v, v.at' i)

/-- `operator=(v)` on distinct objects (the `&v == this` self-assignment check
compares object identity, which has no counterpart between two values; the
claims only exercise assignment between distinct vectors): free the current
buffer, allocate `new T[v.cap]` (default-filled), copy `v.sz` live elements,
adopt `v.sz` and `v.cap`. -/
def assign (_dst : vector α) (src : vector α) : vector α :=
  { t := src.t.take src.sz ++ List.replicate (src.cap - src.sz) default
    cap := src.cap
    sz := src.sz }

/-- The live elements, `t[0] .. t[sz-1]`. -/
def elems (v : vector α) : List α := v.t.take v.sz

end vector

/-- A step of a `push_back`/`pop_back` sequence (claim C6). -/
inductive VOp (α : Type) where
  | push (val : α)
  | pop
deriving Repr, DecidableEq

namespace vector

/-- Apply a sequence of `push_back`/`pop_back` calls. -/
def applyOps (v : vector α) : List (VOp α) → vector α
  | [] => v
  | VOp.push x :: r => applyOps (v.push_back x) r
  | VOp.pop :: r => applyOps v.pop_back r

/-- Number of pushes in a sequence. -/
def pushCount : List (VOp α) → Nat
  | [] => 0
  | VOp.push _ :: r => pushCount r + 1
  | VOp.pop :: r => pushCount r

/-- Number of pops in a sequence. -/
def popCount : List (VOp α) → Nat
  | [] => 0
  | VOp.push _ :: r => popCount r
  | VOp.pop :: r => popCount r + 1

/-- Starting from size `s`, no `pop_back` of the sequence ever hits an empty
vector. -/
def safeOps : Nat → List (VOp α) → Bool
  | _, [] => true
  | s, VOp.push _ :: r => safeOps (s + 1) r
  | s, VOp.pop :: r => decide (0 < s) && safeOps (s - 1) r

end vector

end vectorDefs

section listGetDLemmas

variable {α : Type}

theorem lgetD_set_self (l : List α) (i : Nat) (x d : α) (h : i < l.length) :
    (l.set i x).getD i d = x := by
  induction l generalizing i with
  | nil => simp at h
  | cons a l ih =>
    cases i with
    | zero => rfl
    | succ i => exact ih i (by simpa using h)

theorem lgetD_set_ne (l : List α) (i j : Nat) (x d : α) (h : i ≠ j) :
    (l.set i x).getD j d = l.getD j d := by
  induction l generalizing i j with
  | nil => rfl
  | cons a l ih =>
    cases i with
    | zero => cases j with
      | zero => exact absurd rfl h
      | succ j => rfl
    | succ i => cases j with
      | zero => rfl
      | succ j => exact ih i j (fun hh => h (by omega))

theorem lgetD_append_left (l₁ l₂ : List α) (i : Nat) (d : α) (h : i < l₁.length) :
    (l₁ ++ l₂).getD i d = l₁.getD i d := by
  induction l₁ generalizing i with
  | nil => simp at h
  | cons a l ih =>
    cases i with
    | zero => rfl
    | succ i => exact ih i (by simpa using h)

theorem lgetD_take (l : List α) (n i : Nat) (d : α) (h : i < n) :
    (l.take n).getD i d = l.getD i d := by
  induction l generalizing n i with
  | nil => simp
  | cons a l ih =>
    cases n with
    | zero => omega
    | succ n =>
      cases i with
      | zero => rfl
      | succ i => exact ih n i (by omega)

end listGetDLemmas

section vectorLemmas

variable {α : Type} [Inhabited α]

namespace vector

theorem reserve_sz (v : vector α) (c : Nat) : (v.reserve c).sz = v.sz := by
  unfold reserve; split <;> rfl

theorem reserve_cap_ge (v : vector α) (c : Nat) : v.cap ≤ (v.reserve c).cap := by
  unfold reserve; split
  · exact Nat.le_of_lt (by assumption)
  · exact Nat.le_refl _

theorem reserve_gt (v : vector α) (c : Nat) (h : v.cap < c) :
    v.reserve c = { t := v.t.take v.sz ++ List.replicate (c - v.sz) default
                    cap := c, sz := v.sz } := by
  unfold reserve; rw [if_pos h]

theorem Vwf_reserve (v : vector α) (c : Nat) (h : Vwf v) : Vwf (v.reserve c) := by
  obtain ⟨hl, hs, hp⟩ := h
  unfold reserve; split
  · rename_i hc
    refine ⟨?_, ?_, ?_⟩
    · simp only [List.length_append, List.length_take, List.length_replicate, hl]
      omega
    · simpa using Nat.le_of_lt (Nat.lt_of_le_of_lt hs hc)
    · exact Nat.lt_of_le_of_lt (Nat.zero_le _) hc
  · exact ⟨hl, hs, hp⟩

theorem push_back_sz (v : vector α) (x : α) : (v.push_back x).sz = v.sz + 1 := by
  unfold push_back
  split <;> simp [reserve_sz]

theorem push_back_cap_ge (v : vector α) (x : α) : v.cap ≤ (v.push_back x).cap := by
  unfold push_back
  split
  · exact reserve_cap_ge v _
  · exact Nat.le_refl _

/-- After the (possible) growth step inside `push_back`, the write position
`sz` is strictly inside the buffer. -/
theorem push_back_room (v : vector α) (h : Vwf v) :
    Vwf (if v.sz = v.cap then v.reserve (v.cap * 2) else v) ∧
    (if v.sz = v.cap then v.reserve (v.cap * 2) else v).sz = v.sz ∧
    v.sz < (if v.sz = v.cap then v.reserve (v.cap * 2) else v).cap := by
  obtain ⟨hl, hs, hp⟩ := h
  split
  · rename_i he
    have hlt : v.cap < v.cap * 2 := by omega
    refine ⟨Vwf_reserve v _ ⟨hl, hs, hp⟩, reserve_sz v _, ?_⟩
    rw [reserve_gt v _ hlt]
    dsimp only
    omega
  · rename_i he
    exact ⟨⟨hl, hs, hp⟩, rfl, Nat.lt_of_le_of_ne hs he⟩

theorem Vwf_push_back (v : vector α) (x : α) (h : Vwf v) : Vwf (v.push_back x) := by
  obtain ⟨hw, hsz, hroom⟩ := push_back_room v h
  obtain ⟨hl, hs, hp⟩ := hw
  unfold push_back
  refine ⟨by simpa using hl, ?_, hp⟩
  simp only [push_back_sz] at *
  omega

theorem push_back_getD_eq (v : vector α) (x d : α) (h : Vwf v) :
    (v.push_back x).t.getD v.sz d = x := by
  obtain ⟨hw, hsz, hroom⟩ := push_back_room v h
  show ((if v.sz = v.cap then v.reserve (v.cap * 2) else v).t.set
      (if v.sz = v.cap then v.reserve (v.cap * 2) else v).sz x).getD v.sz d = x
  rw [hsz]
  exact lgetD_set_self _ _ _ _ (by rw [hw.1]; exact hroom)

theorem push_back_getD_lt (v : vector α) (x d : α) (i : Nat) (h : Vwf v)
    (hi : i < v.sz) : (v.push_back x).t.getD i d = v.t.getD i d := by
  obtain ⟨hl, hs, hp⟩ := h
  unfold push_back
  split
  · rename_i he
    have hlt : v.cap < v.cap * 2 := by omega
    rw [reserve_gt v _ hlt]
    simp only [reserve_sz]
    rw [lgetD_set_ne _ _ _ _ _ (by omega)]
    rw [lgetD_append_left _ _ _ _ (by simp [List.length_take, hl]; omega)]
    exact lgetD_take _ _ _ _ hi
  · rw [lgetD_set_ne _ _ _ _ _ (by omega)]

theorem pop_back_sz (v : vector α) : v.pop_back.sz = v.sz - 1 := by
  unfold pop_back
  split
  · omega
  · rfl

theorem pop_back_cap (v : vector α) : v.pop_back.cap = v.cap := by
  unfold pop_back; split <;> rfl

theorem popK_sz (v : vector α) (k : Nat) (h : k ≤ v.sz) : (popK v k).sz = v.sz - k := by
  induction k generalizing v with
  | zero => rfl
  | succ k ih =>
    show (popK v.pop_back k).sz = v.sz - (k + 1)
    rw [ih v.pop_back (by rw [pop_back_sz]; omega), pop_back_sz]
    omega

theorem popK_cap (v : vector α) (k : Nat) : (popK v k).cap = v.cap := by
  induction k generalizing v with
  | zero => rfl
  | succ k ih => show (popK v.pop_back k).cap = v.cap; rw [ih, pop_back_cap]

theorem pushK_sz (v : vector α) (val : α) (k : Nat) :
    (pushK v val k).sz = v.sz + k := by
  induction k generalizing v with
  | zero => rfl
  | succ k ih =>
    show (pushK (v.push_back val) val k).sz = v.sz + (k + 1)
    rw [ih, push_back_sz]; omega

theorem pushK_cap_ge (v : vector α) (val : α) (k : Nat) :
    v.cap ≤ (pushK v val k).cap := by
  induction k generalizing v with
  | zero => exact Nat.le_refl _
  | succ k ih =>
    exact Nat.le_trans (push_back_cap_ge v val) (ih (v.push_back val))

theorem Vwf_pushK (v : vector α) (val : α) (k : Nat) (h : Vwf v) :
    Vwf (pushK v val k) := by
  induction k generalizing v with
  | zero => exact h
  | succ k ih => exact ih _ (Vwf_push_back v val h)

theorem pushK_getD_lt (v : vector α) (val d : α) (k i : Nat) (h : Vwf v)
    (hi : i < v.sz) : (pushK v val k).t.getD i d = v.t.getD i d := by
  induction k generalizing v with
  | zero => rfl
  | succ k ih =>
    show (pushK (v.push_back val) val k).t.getD i d = v.t.getD i d
    rw [ih _ (Vwf_push_back v val h) (by rw [push_back_sz]; omega)]
    exact push_back_getD_lt v val d i h hi

theorem pushK_getD (v : vector α) (val d : α) (k i : Nat) (h : Vwf v)
    (h1 : v.sz ≤ i) (h2 : i < v.sz + k) :
    (pushK v val k).t.getD i d = val := by
  induction k generalizing v with
  | zero => omega
  | succ k ih =>
    show (pushK (v.push_back val) val k).t.getD i d = val
    rcases Nat.eq_or_lt_of_le h1 with he | hlt
    · rw [pushK_getD_lt _ _ _ _ _ (Vwf_push_back v val h)
        (by rw [push_back_sz]; omega)]
      rw [← he]
      exact push_back_getD_eq v val d h
    · exact ih _ (Vwf_push_back v val h) (by rw [push_back_sz]; omega)
        (by rw [push_back_sz]; omega)

theorem resize_sz (v : vector α) (n : Nat) (val : α) : (v.resize n val).sz = n := by
  unfold resize
  rcases Nat.le_total n v.sz with h | h
  · rw [pushK_sz, popK_sz v _ (by omega)]
    omega
  · have h0 : v.sz - n = 0 := by omega
    rw [h0]
    show (pushK v val (n - v.sz)).sz = n
    rw [pushK_sz]; omega

theorem resize_cap_ge (v : vector α) (n : Nat) (val : α) :
    v.cap ≤ (v.resize n val).cap := by
  unfold resize
  exact Nat.le_trans (Nat.le_of_eq (popK_cap v _).symm) (pushK_cap_ge _ _ _)

theorem insertStep_cap_ge (v : vector α) (tmp : Nat) :
    v.cap ≤ (v.insertStep tmp).cap := by
  show v.cap ≤ (v.push_back (v.t.getD tmp default)).cap
  exact push_back_cap_ge v _

theorem insLoop_cap_ge (v : vector α) (p n : Nat) : v.cap ≤ (insLoop v p n).cap := by
  induction n generalizing v with
  | zero => exact Nat.le_refl _
  | succ n ih =>
    show v.cap ≤ (if p = n + 1 then v else insLoop (v.insertStep n) p n).cap
    split
    · exact Nat.le_refl _
    · exact Nat.le_trans (insertStep_cap_ge v n) (ih _)

theorem insert_cap_ge (v : vector α) (p : Nat) (val : α) :
    v.cap ≤ (v.insert p val).cap := by
  unfold insert
  split
  · exact insLoop_cap_ge v p v.sz
  · exact Nat.le_refl _

theorem erase_cap (v : vector α) (p : Nat) : (v.erase p).cap = v.cap := by
  unfold erase; split <;> rfl

theorem clear_cap (v : vector α) : v.clear.cap = v.cap := popK_cap v v.sz

theorem applyOps_sz_int (ops : List (VOp α)) :
    ∀ v : vector α, safeOps v.sz ops = true →
      ((applyOps v ops).sz : Int) = (v.sz : Int) + pushCount ops - popCount ops := by
  induction ops with
  | nil => intro v _; simp [applyOps, pushCount, popCount]
  | cons op r ih =>
    intro v hsafe
    cases op with
    | push x =>
      have hs : safeOps (v.push_back x).sz r = true := by
        rw [push_back_sz]; exact hsafe
      have := ih (v.push_back x) hs
      simp only [applyOps, pushCount, popCount] at *
      rw [this, push_back_sz]
      push_cast
      omega
    | pop =>
      simp only [safeOps, Bool.and_eq_true, decide_eq_true_eq] at hsafe
      obtain ⟨hpos, hsafe⟩ := hsafe
      have hs : safeOps v.pop_back.sz r = true := by rw [pop_back_sz]; exact hsafe
      have := ih v.pop_back hs
      simp only [applyOps, pushCount, popCount] at *
      rw [this, pop_back_sz]
      omega

theorem push_back_incremental_room (v : vector α) (h : Vwf v) :
    Vwf (if v.sz = v.cap then v.reserve (v.cap + 1) else v) ∧
    (if v.sz = v.cap then v.reserve (v.cap + 1) else v).sz = v.sz ∧
    v.sz < (if v.sz = v.cap then v.reserve (v.cap + 1) else v).cap := by
  obtain ⟨hl, hs, hp⟩ := h
  split
  · rename_i he
    have hlt : v.cap < v.cap + 1 := by omega
    refine ⟨Vwf_reserve v _ ⟨hl, hs, hp⟩, reserve_sz v _, ?_⟩
    rw [reserve_gt v _ hlt]
    dsimp only
    omega
  · rename_i he
    exact ⟨⟨hl, hs, hp⟩, rfl, Nat.lt_of_le_of_ne hs he⟩

theorem push_back_incremental_sz (v : vector α) (x : α) :
    (v.push_back_incremental x).sz = v.sz + 1 := by
  unfold push_back_incremental
  split <;> simp [reserve_sz]

theorem push_back_incremental_cap_ge (v : vector α) (x : α) :
    v.cap ≤ (v.push_back_incremental x).cap := by
  unfold push_back_incremental
  split
  · exact reserve_cap_ge v _
  · exact Nat.le_refl _

theorem push_back_incremental_getD_eq (v : vector α) (x d : α) (h : Vwf v) :
    (v.push_back_incremental x).t.getD v.sz d = x := by
  obtain ⟨hw, hsz, hroom⟩ := push_back_incremental_room v h
  show ((if v.sz = v.cap then v.reserve (v.cap + 1) else v).t.set
      (if v.sz = v.cap then v.reserve (v.cap + 1) else v).sz x).getD v.sz d = x
  rw [hsz]
  exact lgetD_set_self _ _ _ _ (by rw [hw.1]; exact hroom)

end vector

end vectorLemmas

section vectorClaims

variable {α : Type} [Inhabited α]

/-- C1 — the claim says `insert(p, value)` shifts every element formerly at
positions `p..size-1` one slot rightward.  The code does not: the `--sz`
inside the loop resets the write position of each internal `push_back` to the
original `sz`, so every shifted element is written to the same slot and only
the last write (of the old `t[p]`) survives there.  Evaluating the code on the
vector `[1,2,3]` with `insert(begin(), 99)`: the live contents come out as
`[99, 2, 3, 1]` (old `t[0]` moved to the end) instead of the claimed
`[99, 1, 2, 3]`, although the size does grow to 4. -/
theorem insert_eval_no_shift :
    vector.elems ((((vector.make 0 (0 : Nat)).push_back 1).push_back 2).push_back 3)
      = [1, 2, 3] ∧
    vector.elems (((((vector.make 0 (0 : Nat)).push_back 1).push_back 2).push_back 3).insert 0 99)
      = [99, 2, 3, 1] ∧
    vector.elems (((((vector.make 0 (0 : Nat)).push_back 1).push_back 2).push_back 3).insert 0 99)
      ≠ [99, 1, 2, 3] ∧
    (((((vector.make 0 (0 : Nat)).push_back 1).push_back 2).push_back 3).insert 0 99).sz
      = 4 := by
  decide

/-- C3: when `size == capacity`, `insert` is a complete no-op — the guard
`if (sz < cap)` fails and the value is silently dropped, leaving size,
capacity and the whole buffer unchanged. -/
theorem insert_full_is_noop (v : vector α) (p : Nat) (val : α) (h : v.sz = v.cap) :
    v.insert p val = v := by
  unfold vector.insert
  rw [if_neg (by omega)]

/-- Witness for C3 on a concrete full vector. -/
theorem insert_full_is_noop_witness :
    (⟨List.replicate 10 (0 : Nat), 10, 10⟩ : vector Nat).sz
        = (⟨List.replicate 10 (0 : Nat), 10, 10⟩ : vector Nat).cap ∧
    (⟨List.replicate 10 (0 : Nat), 10, 10⟩ : vector Nat).insert 3 7
        = ⟨List.replicate 10 (0 : Nat), 10, 10⟩ :=
  ⟨rfl, insert_full_is_noop _ 3 7 rfl⟩

/-- C4: `at(i)` leaves the vector unmodified (the method writes no member),
fails with the out-of-range error exactly when `i ≥ size()`, and returns the
element at index `i` when `i < size()`. -/
theorem at_checked_access (v : vector α) (i : Nat) :
    (v.atS i).1 = v ∧
    ((v.atS i).2 = Except.error "Invalid Array Access" ↔ v.sz ≤ i) ∧
    (i < v.sz → (v.atS i).2 = Except.ok (v.t.getD i default)) := by
  refine ⟨rfl, ?_, ?_⟩
  · show (if i ≥ v.sz then (Except.error "Invalid Array Access" : Except String α)
        else Except.ok (v.t.getD i default)) = Except.error "Invalid Array Access"
      ↔ v.sz ≤ i
    by_cases hc : v.sz ≤ i
    · rw [if_pos hc]; simp [hc]
    · rw [if_neg hc]; simp [hc]
  · intro hlt
    show (if i ≥ v.sz then (Except.error "Invalid Array Access" : Except String α)
        else Except.ok (v.t.getD i default)) = Except.ok (v.t.getD i default)
    rw [if_neg (by omega)]

/-- Witness for C4 at a concrete vector and index. -/
theorem at_checked_access_witness :
    ((vector.make 2 (5 : Nat)).atS 1).1 = vector.make 2 (5 : Nat) ∧
    (((vector.make 2 (5 : Nat)).atS 1).2 = Except.error "Invalid Array Access"
        ↔ (vector.make 2 (5 : Nat)).sz ≤ 1) ∧
    (1 < (vector.make 2 (5 : Nat)).sz →
      ((vector.make 2 (5 : Nat)).atS 1).2
        = Except.ok ((vector.make 2 (5 : Nat)).t.getD 1 default)) :=
  at_checked_access (vector.make 2 5) 1

/-- C5: on a full vector (`sz == cap`), `push_back` doubles the capacity
exactly, `push_back_incremental` grows it by exactly one, and both write the
value at index `old size` and increment the size. -/
theorem push_back_full_growth (v : vector α) (x y : α) (h : Vwf v)
    (he : v.sz = v.cap) :
    ((v.push_back x).cap = v.cap * 2 ∧ (v.push_back x).sz = v.sz + 1 ∧
      (v.push_back x).t.getD v.sz default = x) ∧
    ((v.push_back_incremental y).cap = v.cap + 1 ∧
      (v.push_back_incremental y).sz = v.sz + 1 ∧
      (v.push_back_incremental y).t.getD v.sz default = y) := by
  have hp : 0 < v.cap := h.2.2
  refine ⟨⟨?_, vector.push_back_sz v x, vector.push_back_getD_eq v x default h⟩,
    ⟨?_, vector.push_back_incremental_sz v y,
      vector.push_back_incremental_getD_eq v y default h⟩⟩
  · show ((if v.sz = v.cap then v.reserve (v.cap * 2) else v).cap) = v.cap * 2
    rw [if_pos he, vector.reserve_gt v _ (by omega)]
  · show ((if v.sz = v.cap then v.reserve (v.cap + 1) else v).cap) = v.cap + 1
    rw [if_pos he, vector.reserve_gt v _ (by omega)]

/-- Witness for C5 on a concrete full vector. -/
theorem push_back_full_growth_witness :
    Vwf (⟨List.replicate 10 (0 : Nat), 10, 10⟩ : vector Nat) ∧
    (⟨List.replicate 10 (0 : Nat), 10, 10⟩ : vector Nat).sz
      = (⟨List.replicate 10 (0 : Nat), 10, 10⟩ : vector Nat).cap ∧
    (((⟨List.replicate 10 (0 : Nat), 10, 10⟩ : vector Nat).push_back 7).cap = 10 * 2 ∧
      ((⟨List.replicate 10 (0 : Nat), 10, 10⟩ : vector Nat).push_back 7).sz = 10 + 1 ∧
      ((⟨List.replicate 10 (0 : Nat), 10, 10⟩ : vector Nat).push_back 7).t.getD 10 default = 7) ∧
    (((⟨List.replicate 10 (0 : Nat), 10, 10⟩ : vector Nat).push_back_incremental 8).cap = 10 + 1 ∧
      ((⟨List.replicate 10 (0 : Nat), 10, 10⟩ : vector Nat).push_back_incremental 8).sz = 10 + 1 ∧
      ((⟨List.replicate 10 (0 : Nat), 10, 10⟩ : vector Nat).push_back_incremental 8).t.getD 10 default = 8) :=
  ⟨by decide, rfl, push_back_full_growth _ 7 8 (by decide) rfl⟩

/-- C6 — counterexample to the claim as stated: starting from the empty
default-constructed vector, the one-element sequence `[pop_back]` leaves the
size at 0, while "size before plus pushes minus pops" is −1; `pop_back` on an
empty vector is a documented no-op, so the unrestricted counting law fails. -/
theorem pushpop_net_counterexample :
    ¬ (((vector.applyOps (vector.make 0 (0 : Nat)) ([VOp.pop] : List (VOp Nat))).sz : Int)
        = ((vector.make 0 (0 : Nat)).sz : Int)
          + vector.pushCount ([VOp.pop] : List (VOp Nat))
          - vector.popCount ([VOp.pop] : List (VOp Nat))) := by
  decide

/-- C6 (amended): for every sequence of `push_back`/`pop_back` in which no
`pop_back` is ever applied to an empty vector, the size after the sequence
equals the size before plus the number of pushes minus the number of pops. -/
theorem pushpop_net_sizes (v : vector α) (ops : List (VOp α))
    (h : vector.safeOps v.sz ops = true) :
    ((vector.applyOps v ops).sz : Int)
      = (v.sz : Int) + vector.pushCount ops - vector.popCount ops :=
  vector.applyOps_sz_int ops v h

/-- Witness for the amended C6 on a concrete sequence. -/
theorem pushpop_net_sizes_witness :
    vector.safeOps (vector.make 0 (0 : Nat)).sz
        [VOp.push 5, VOp.push 6, VOp.pop, VOp.push 7] = true ∧
    ((vector.applyOps (vector.make 0 (0 : Nat))
        [VOp.push 5, VOp.push 6, VOp.pop, VOp.push 7]).sz : Int)
      = ((vector.make 0 (0 : Nat)).sz : Int)
        + vector.pushCount [VOp.push 5, VOp.push 6, VOp.pop, VOp.push (7 : Nat)]
        - vector.popCount [VOp.push 5, VOp.push 6, VOp.pop, VOp.push (7 : Nat)] :=
  ⟨by decide, pushpop_net_sizes _ _ (by decide)⟩

/-- C7 — counterexample to the claim as stated: copy-assignment adopts the
*source's* capacity (`cap = v.cap`), so assigning a capacity-10 vector into a
capacity-20 vector shrinks the capacity, contradicting monotonicity. -/
theorem assign_cap_shrinks :
    ¬ ((vector.make 10 (0 : Nat)).cap
        ≤ ((vector.make 10 (0 : Nat)).assign (vector.make 0 0)).cap) := by
  decide

/-- C7 (amended): for every vector operation other than default/copy
construction, destruction and copy-assignment — i.e. for `reserve`, `resize`,
`push_back`, `push_back_incremental`, `pop_back`, `insert`, `erase` and
`clear` — the capacity never decreases (copy-assignment instead adopts the
source's capacity, which may be smaller). -/
theorem cap_monotone (v : vector α) (c n p : Nat) (val x y z : α) :
    v.cap ≤ (v.reserve c).cap ∧
    v.cap ≤ (v.resize n val).cap ∧
    v.cap ≤ (v.push_back x).cap ∧
    v.cap ≤ (v.push_back_incremental y).cap ∧
    v.cap ≤ v.pop_back.cap ∧
    v.cap ≤ (v.insert p z).cap ∧
    v.cap ≤ (v.erase p).cap ∧
    v.cap ≤ v.clear.cap :=
  ⟨vector.reserve_cap_ge v c, vector.resize_cap_ge v n val,
    vector.push_back_cap_ge v x, vector.push_back_incremental_cap_ge v y,
    Nat.le_of_eq (vector.pop_back_cap v).symm, vector.insert_cap_ge v p z,
    Nat.le_of_eq (vector.erase_cap v p).symm,
    Nat.le_of_eq (vector.clear_cap v).symm⟩

end vectorClaims

section listDefs

variable {α : Type} [Inhabited α]

/-- Embedding of `mystl::list<T>::node`: value `t`, pointers `prev`/`next`
(`none` is the null pointer, `some a` points to the node at heap address
`a`). -/
structure node (α : Type) where
  t : α
  prev : Option Nat
  next : Option Nat
deriving Repr, DecidableEq

/-- The node heap: an association list from addresses to live nodes.  A node
absent from the heap is unallocated or freed; reading or writing it is
undefined behavior. -/
abbrev Heap (α : Type) := List (Nat × node α)

/-- Read the node at address `a` (`none`: not allocated / already freed). -/
def hget : Heap α → Nat → Option (node α)
  | [], _ => none
  | (b, nd) :: r, a => if a = b then some nd else hget r a

/-- Write the node at address `a` (allocating it if absent). -/
def hset : Heap α → Nat → node α → Heap α
  | [], a, nd => [(a, nd)]
  | (b, m) :: r, a, nd => if a = b then (a, nd) :: r else (b, m) :: hset r a nd

/-- Free the node at address `a` (every entry at that address is removed). -/
def hdel : Heap α → Nat → Heap α
  | [], _ => []
  | (b, m) :: r, a => if b = a then hdel r a else (b, m) :: hdel r a

/-- Dereference a node pointer (`none` result: null or dangling pointer). -/
def readNode (h : Heap α) (p : Option Nat) : Option (node α) := do
  let a ← p
  hget h a

/-- The field write `x->next = v`; fails if `x` is dangling. -/
def setNextF (h : Heap α) (a : Nat) (v : Option Nat) : Option (Heap α) :=
  (hget h a).map (fun nd => hset h a { nd with next := v })

/-- The field write `x->prev = v`; fails if `x` is dangling. -/
def setPrevF (h : Heap α) (a : Nat) (v : Option Nat) : Option (Heap α) :=
  (hget h a).map (fun nd => hset h a { nd with prev := v })

/-- `delete p`: a no-op on the null pointer, frees a live node, undefined
(double free) on a dangling pointer. -/
def deleteP (h : Heap α) (p : Option Nat) : Option (Heap α) :=
  match p with
  | none => some h
  | some a => if (hget h a).isSome then some (hdel h a) else none

/-- Embedding of `mystl::list<T>`: the node heap, the `head`/`tail` pointers,
the size `sz`, and the allocation counter `fresh` (the next unused heap
address, standing for the allocator). -/
structure list (α : Type) where
  heap : Heap α
  head : Option Nat
  tail : Option Nat
  sz : Nat
  fresh : Nat
deriving Repr, DecidableEq

namespace list

/-- The default-constructed empty list (`head = tail = NULL`, `sz = 0`). -/
def new : list α := { heap := [], head := none, tail := none, sz := 0, fresh := 0 }

/-- `push_back(val)`: if `empty()`, allocate `new node(val, NULL, NULL)` and
point `head` and `tail` at it; otherwise allocate `new node(val, tail, NULL)`,
set `tail->next` to it and move `tail`.  Either way `++sz`. -/
def push_back (s : list α) (val : α) : Option (list α) :=
  if s.sz = 0 then
    some { heap := hset s.heap s.fresh ⟨val, none, none⟩
           head := some s.fresh, tail := some s.fresh
           sz := s.sz + 1, fresh := s.fresh + 1 }
  else do
    let h0 := hset s.heap s.fresh ⟨val, s.tail, none⟩
    let ta ← s.tail
    let h1 ← setNextF h0 ta (some s.fresh)
    some { heap := h1, head := s.head, tail := some s.fresh
           sz := s.sz + 1, fresh := s.fresh + 1 }

/-- `push_front(val)`: symmetric to `push_back`. -/
def push_front (s : list α) (val : α) : Option (list α) :=
  if s.sz = 0 then
    some { heap := hset s.heap s.fresh ⟨val, none, none⟩
           head := some s.fresh, tail := some s.fresh
           sz := s.sz + 1, fresh := s.fresh + 1 }
  else do
    let h0 := hset s.heap s.fresh ⟨val, none, s.head⟩
    let ha ← s.head
    let h1 ← setPrevF h0 ha (some s.fresh)
    some { heap := h1, head := some s.fresh, tail := s.tail
           sz := s.sz + 1, fresh := s.fresh + 1 }

/-- `pop_front()`: no-op if `empty()`; if `sz == 1`, `delete head` and null
both ends; otherwise `head = head->next; delete head->prev;
head->prev = NULL`.  Either way `--sz`. -/
def pop_front (s : list α) : Option (list α) :=
  if s.sz = 0 then some s
  else if s.sz = 1 then do
    let h1 ← deleteP s.heap s.head
    some { heap := h1, head := none, tail := none
           sz := s.sz - 1, fresh := s.fresh }
  else do
    let hd ← readNode s.heap s.head
    let newHead := hd.next
    let hn ← readNode s.heap newHead
    let h1 ← deleteP s.heap hn.prev
    let ha ← newHead
    let h2 ← setPrevF h1 ha none
    some { heap := h2, head := newHead, tail := s.tail
           sz := s.sz - 1, fresh := s.fresh }

/-- `pop_back()`: no-op if `empty()`; if `sz == 1`, `delete tail` and null
both ends; otherwise `tail = tail->prev; delete tail->next;
tail->next = NULL`.  Either way `--sz`. -/
def pop_back (s : list α) : Option (list α) :=
  if s.sz = 0 then some s
  else if s.sz = 1 then do
    let h1 ← deleteP s.heap s.tail
    some { heap := h1, head := none, tail := none
           sz := s.sz - 1, fresh := s.fresh }
  else do
    let tl ← readNode s.heap s.tail
    let newTail := tl.prev
    let tn ← readNode s.heap newTail
    let h1 ← deleteP s.heap tn.next
    let ta ← newTail
    let h2 ← setNextF h1 ta none
    some { heap := h2, head := s.head, tail := newTail
           sz := s.sz - 1, fresh := s.fresh }

/-- `insert(i, val)`: `push_front` when `i == begin()` (node-pointer equality
with `head`), `push_back` when `i == end()` (null), otherwise splice
`new node(val, i.n->prev, i.n)` before `i`'s node via
`i.n->prev->next = midNode; i.n->prev = midNode; ++sz`. -/
def insert (s : list α) (i : Option Nat) (val : α) : Option (list α) :=
  if i = s.head then s.push_front val
  else if i = none then s.push_back val
  else do
    let a ← i
    let nd ← hget s.heap a
    let h0 := hset s.heap s.fresh ⟨val, nd.prev, some a⟩
    let pa ← nd.prev
    let h1 ← setNextF h0 pa (some s.fresh)
    let h2 ← setPrevF h1 a (some s.fresh)
    some { heap := h2, head := s.head, tail := s.tail
           sz := s.sz + 1, fresh := s.fresh + 1 }

/-- `erase(i)`: `pop_front` when `i == begin()`, `pop_back` when `i == end()`
(null), otherwise `i.n->next->prev = i.n->prev; i.n->prev->next = i.n->next;
delete i.n; --sz`.  Note the first statement dereferences `i.n->next`. -/
def erase (s : list α) (i : Option Nat) : Option (list α) :=
  if i = s.head then s.pop_front
  else if i = none then s.pop_back
  else do
    let a ← i
    let nd ← hget s.heap a
    let qa ← nd.next
    let h1 ← setPrevF s.heap qa nd.prev
    let nd2 ← hget h1 a
    let pa ← nd2.prev
    let h2 ← setNextF h1 pa nd2.next
    let h3 ← deleteP h2 (some a)
    some { heap := h3, head := s.head, tail := s.tail
           sz := s.sz - 1, fresh := s.fresh }

/-- The loop of `clear()`: `for (iterator it = begin(); it != end(); ++it)
pop_front();`.  After `pop_front()` frees the node `it` points to, `++it`
reads `it.n->next` from that freed node.  `fuel` only bounds the number of
iterations (the C++ loop has no own bound); it is chosen large enough in
`clear` that a defined run can never exhaust it. -/
def clearLoop : Nat → Option Nat → list α → Option (list α)
  | 0, it, s => if it = none then some s else none
  | fuel + 1, it, s =>
    if it = none then some s
    else do
      let s' ← s.pop_front
      let nd ← readNode s'.heap it
      clearLoop fuel nd.next s'

/-- `clear()` (the size can only shrink, so `sz + 1` units of fuel dominate
any defined run of the loop). -/
def clear (s : list α) : Option (list α) := clearLoop (s.sz + 1) s.head s

/-- `while (sz < n) push_back(val);` — each succeeding `push_back` adds
exactly one node, so the loop runs `n - sz` times; `pushN` is that many
iterations. -/
def pushN : Nat → list α → α → Option (list α)
  | 0, s, _ => some s
  | k + 1, s, val => do
    let s' ← s.push_back val
    pushN k s' val

/-- `while (sz > n) pop_back();` — each `pop_back` under the guard removes
exactly one node, so the loop runs `sz - n` times; `popN` is that many
iterations. -/
def popN : Nat → list α → Option (list α)
  | 0, s => some s
  | k + 1, s => do
    let s' ← s.pop_back
    popN k s'

/-- `resize(n, val)`: first `while (sz < n) push_back(val);`, then
`while (sz > n) pop_back();`. -/
def resize (s : list α) (n : Nat) (val : α) : Option (list α) := do
  let s1 ← pushN (n - s.sz) s val
  popN (s1.sz - n) s1

end list

/-- `dseg h pv cur as la nx`: walking the `next` pointers in heap `h` from
pointer `cur`, whose predecessor node is at pointer `pv`, visits exactly the
addresses `as` (each a live node whose `prev` points back correctly), after
which the running pointer is `nx` and the last visited address is `la`.
`dseg h none s.head as s.tail none` says the addresses `as` form the whole
doubly-linked chain of the list. -/
def dseg (h : Heap α) : Option Nat → Option Nat → List Nat → Option Nat → Option Nat → Bool
  | pv, cur, [], la, nx => cur == nx && pv == la
  | pv, cur, a :: as, la, nx =>
    cur == some a &&
      match hget h a with
      | none => false
      | some nd => nd.prev == pv && dseg h (some a) nd.next as la nx

/-- The structural invariant of `mystl::list`, as a statement about an
explicit address chain `as`: the `next`/`prev` links from `head` to `tail`
traverse exactly the distinct addresses `as`, there are `sz` of them, and all
live below the allocation counter. -/
def chainOf (s : list α) (as : List Nat) : Prop :=
  dseg s.heap none s.head as s.tail none = true ∧
  as.Nodup ∧ as.length = s.sz ∧ (∀ a ∈ as, a < s.fresh)

instance (s : list α) (as : List Nat) : Decidable (chainOf s as) := by
  unfold chainOf; infer_instance

/-- The element value held at a single address (`default` on a dead address;
only used along live chains). -/
def valAt (h : Heap α) (a : Nat) : α :=
  match hget h a with
  | some nd => nd.t
  | none => default

/-- The element values held at a chain of addresses. -/
def valsOf (h : Heap α) (as : List Nat) : List α :=
  as.map (valAt h)

end listDefs

section heapLemmas

variable {α : Type} [Inhabited α]

theorem hget_hset (h : Heap α) (a b : Nat) (nd : node α) :
    hget (hset h a nd) b = if b = a then some nd else hget h b := by
  induction h with
  | nil => simp [hset, hget]
  | cons p r ih =>
    obtain ⟨c, m⟩ := p
    show hget (if a = c then (a, nd) :: r else (c, m) :: hset r a nd) b = _
    by_cases hac : a = c
    · rw [if_pos hac]
      show (if b = a then some nd else hget r b) = _
      by_cases hba : b = a
      · rw [if_pos hba, if_pos hba]
      · rw [if_neg hba, if_neg hba]
        show hget r b = if b = c then some m else hget r b
        rw [if_neg (fun hbc : b = c => hba (hbc.trans hac.symm))]
    · rw [if_neg hac]
      show (if b = c then some m else hget (hset r a nd) b) = _
      by_cases hbc : b = c
      · rw [if_pos hbc, if_neg (fun hba : b = a => hac (hba.symm.trans hbc))]
        show some m = if b = c then some m else hget r b
        rw [if_pos hbc]
      · rw [if_neg hbc, ih]
        by_cases hba : b = a
        · rw [if_pos hba, if_pos hba]
        · rw [if_neg hba, if_neg hba]
          show hget r b = if b = c then some m else hget r b
          rw [if_neg hbc]

theorem hget_hdel (h : Heap α) (a b : Nat) :
    hget (hdel h a) b = if b = a then none else hget h b := by
  induction h with
  | nil =>
    show (none : Option (node α)) = if b = a then none else none
    split <;> rfl
  | cons p r ih =>
    obtain ⟨c, m⟩ := p
    show hget (if c = a then hdel r a else (c, m) :: hdel r a) b = _
    by_cases hca : c = a
    · rw [if_pos hca, ih]
      by_cases hba : b = a
      · rw [if_pos hba, if_pos hba]
      · rw [if_neg hba, if_neg hba]
        show hget r b = if b = c then some m else hget r b
        rw [if_neg (fun hbc : b = c => hba (hbc.trans hca))]
    · rw [if_neg hca]
      show (if b = c then some m else hget (hdel r a) b) = _
      by_cases hbc : b = c
      · rw [if_pos hbc, if_neg (fun hba : b = a => hca (hbc.symm.trans hba))]
        show some m = if b = c then some m else hget r b
        rw [if_pos hbc]
      · rw [if_neg hbc, ih]
        by_cases hba : b = a
        · rw [if_pos hba, if_pos hba]
        · rw [if_neg hba, if_neg hba]
          show hget r b = if b = c then some m else hget r b
          rw [if_neg hbc]

theorem dseg_congr (h h' : Heap α) (as : List Nat)
    (hh : ∀ a ∈ as, hget h' a = hget h a) :
    ∀ pv cur la nx, dseg h' pv cur as la nx = dseg h pv cur as la nx := by
  induction as with
  | nil => intro pv cur la nx; rfl
  | cons a as ih =>
    intro pv cur la nx
    simp only [dseg]
    rw [hh a (by simp)]
    cases hga : hget h a with
    | none => rfl
    | some nd =>
      show (cur == some a && (nd.prev == pv && dseg h' (some a) nd.next as la nx))
          = (cur == some a && (nd.prev == pv && dseg h (some a) nd.next as la nx))
      rw [ih (fun b hb => hh b (by simp [hb]))]

theorem valsOf_congr (h h' : Heap α) (as : List Nat)
    (hh : ∀ a ∈ as, valAt h' a = valAt h a) : valsOf h' as = valsOf h as := by
  induction as with
  | nil => rfl
  | cons a as ih =>
    simp only [valsOf, List.map_cons] at *
    rw [hh a (by simp), ih (fun b hb => hh b (by simp [hb]))]

theorem valAt_congr_get (h h' : Heap α) (a : Nat) (hh : hget h' a = hget h a) :
    valAt h' a = valAt h a := by
  unfold valAt
  rw [hh]

theorem dseg_nil_iff (h : Heap α) (pv cur la nx : Option Nat) :
    dseg h pv cur [] la nx = true ↔ cur = nx ∧ pv = la := by
  simp [dseg, Bool.and_eq_true]

theorem dseg_cons_iff (h : Heap α) (pv cur la nx : Option Nat) (a : Nat)
    (as : List Nat) :
    dseg h pv cur (a :: as) la nx = true ↔
      cur = some a ∧ ∃ nd, hget h a = some nd ∧ nd.prev = pv ∧
        dseg h (some a) nd.next as la nx = true := by
  simp only [dseg, Bool.and_eq_true, beq_iff_eq]
  cases hga : hget h a with
  | none => simp
  | some nd => simp [Bool.and_eq_true, beq_iff_eq]

theorem dseg_append_iff (h : Heap α) (l₁ l₂ : List Nat) :
    ∀ pv cur la nx, dseg h pv cur (l₁ ++ l₂) la nx = true ↔
      ∃ pm cm, dseg h pv cur l₁ pm cm = true ∧ dseg h pm cm l₂ la nx = true := by
  induction l₁ with
  | nil =>
    intro pv cur la nx
    constructor
    · intro hh
      exact ⟨pv, cur, (dseg_nil_iff h pv cur pv cur).mpr ⟨rfl, rfl⟩, hh⟩
    · rintro ⟨pm, cm, h1, h2⟩
      obtain ⟨hc, hp⟩ := (dseg_nil_iff h pv cur pm cm).mp h1
      rw [List.nil_append, hc, hp]
      exact h2
  | cons a l₁ ih =>
    intro pv cur la nx
    rw [List.cons_append]
    simp only [dseg_cons_iff]
    constructor
    · rintro ⟨hc, nd, hg, hp, hrest⟩
      obtain ⟨pm, cm, h1, h2⟩ := (ih _ _ _ _).mp hrest
      exact ⟨pm, cm, ⟨hc, nd, hg, hp, h1⟩, h2⟩
    · rintro ⟨pm, cm, ⟨hc, nd, hg, hp, h1⟩, h2⟩
      exact ⟨hc, nd, hg, hp, (ih _ _ _ _).mpr ⟨pm, cm, h1, h2⟩⟩

end heapLemmas

section listOpLemmas

variable {α : Type} [Inhabited α]

/-- Effect of `push_back` on a well-formed chain: it succeeds, appends one
node at the fresh address, and appends the value. -/
theorem push_back_chain (s : list α) (as : List Nat) (v : α) (h : chainOf s as) :
    ∃ s', s.push_back v = some s' ∧ chainOf s' (as ++ [s.fresh]) ∧
      s'.sz = s.sz + 1 ∧ s'.fresh = s.fresh + 1 ∧ s'.tail = some s.fresh ∧
      valsOf s'.heap (as ++ [s.fresh]) = valsOf s.heap as ++ [v] := by
  obtain ⟨hd, hnd, hlen, hfr⟩ := h
  by_cases h0 : s.sz = 0
  · -- empty case: as = []
    have hasnil : as = [] := List.length_eq_zero.mp (hlen.trans h0)
    subst hasnil
    obtain ⟨hhead, htail⟩ := (dseg_nil_iff s.heap none s.head s.tail none).mp hd
    refine ⟨_, by rw [list.push_back, if_pos h0], ?_, rfl, rfl, rfl, ?_⟩
    · refine ⟨?_, by simp, by simp [h0], by simp⟩
      rw [List.nil_append]
      rw [dseg_cons_iff]
      refine ⟨rfl, ⟨v, none, none⟩, ?_, rfl, ?_⟩
      · rw [hget_hset, if_pos rfl]
      · rw [dseg_nil_iff]
        exact ⟨rfl, rfl⟩
    · simp [valsOf, valAt, hget_hset]
  · -- non-empty case
    obtain ⟨l, b, hlb⟩ := (List.eq_nil_or_concat as).resolve_left
      (fun hnil => h0 (by rw [hnil] at hlen; exact hlen.symm))
    have has : as = l ++ [b] := hlb.trans (List.concat_eq_append l b)
    clear hlb
    subst has
    -- decompose the chain: l, then the final node b
    obtain ⟨pm, cm, hseg1, hseg2⟩ := (dseg_append_iff s.heap l [b] none s.head s.tail none).mp hd
    rw [dseg_cons_iff] at hseg2
    obtain ⟨hcm, ndb, hgb, hpb, hrest⟩ := hseg2
    obtain ⟨hnext, htail⟩ := (dseg_nil_iff _ _ _ _ _).mp hrest
    -- s.tail = some b, ndb.next = none
    have htail' : s.tail = some b := htail.symm
    have hbfr : b < s.fresh := hfr b (by simp)
    have hbne : b ≠ s.fresh := Nat.ne_of_lt hbfr
    -- evaluate push_back
    have hstep : s.push_back v = some
        ({ heap := hset (hset s.heap s.fresh ⟨v, some b, none⟩) b { ndb with next := some s.fresh }
           head := s.head, tail := some s.fresh, sz := s.sz + 1, fresh := s.fresh + 1 } : list α) := by
      rw [list.push_back, if_neg h0, htail']
      show ((setNextF (hset s.heap s.fresh ⟨v, some b, none⟩) b (some s.fresh)).bind
        (fun h1 => some ({ heap := h1, head := s.head, tail := some s.fresh
                           sz := s.sz + 1, fresh := s.fresh + 1 } : list α))) = _
      rw [show setNextF (hset s.heap s.fresh ⟨v, some b, none⟩) b (some s.fresh)
            = some (hset (hset s.heap s.fresh ⟨v, some b, none⟩) b { ndb with next := some s.fresh }) by
        unfold setNextF
        rw [hget_hset, if_neg hbne, hgb]
        rfl]
      rfl
    -- name the new heap
    refine ⟨_, hstep, ?_, rfl, rfl, rfl, ?_⟩
    · -- chainOf of the extended chain
      have hbl : b ∉ l := by
        obtain ⟨-, -, hdisj⟩ := List.nodup_append.mp hnd
        exact fun hb => hdisj hb (by simp)
      have hfrl : ∀ x ∈ l, x < s.fresh := fun x hx => hfr x (by simp [hx])
      have hframe : ∀ x ∈ l,
          hget (hset (hset s.heap s.fresh ⟨v, some b, none⟩) b { ndb with next := some s.fresh }) x
            = hget s.heap x := by
        intro x hx
        have hxb : x ≠ b := fun hh => hbl (hh ▸ hx)
        have hxf : x ≠ s.fresh := Nat.ne_of_lt (hfrl x hx)
        rw [hget_hset, if_neg hxb, hget_hset, if_neg hxf]
      refine ⟨?_, ?_, ?_, ?_⟩
      · rw [List.append_assoc]
        show dseg _ none s.head (l ++ [b, s.fresh]) (some s.fresh) none = true
        rw [dseg_append_iff]
        refine ⟨pm, cm, ?_, ?_⟩
        · rw [dseg_congr _ _ l hframe]
          exact hseg1
        · rw [dseg_cons_iff]
          refine ⟨hcm, { ndb with next := some s.fresh }, ?_, hpb, ?_⟩
          · rw [hget_hset, if_pos rfl]
          · rw [dseg_cons_iff]
            refine ⟨rfl, ⟨v, some b, none⟩, ?_, rfl, ?_⟩
            · rw [hget_hset, if_neg (Ne.symm hbne), hget_hset, if_pos rfl]
            · rw [dseg_nil_iff]
              exact ⟨rfl, rfl⟩
      · rw [List.nodup_append]
        refine ⟨hnd, List.nodup_singleton _, fun x hx hxf => ?_⟩
        rw [List.mem_singleton] at hxf
        exact absurd (hxf ▸ hfr x hx) (lt_irrefl _)
      · show ((l ++ [b]) ++ [s.fresh]).length = s.sz + 1
        simp only [List.length_append, List.length_singleton] at *
        omega
      · intro x hx
        show x < s.fresh + 1
        rcases List.mem_append.mp hx with hxl | hxf
        · exact Nat.lt_succ_of_lt (hfr x hxl)
        · rw [List.mem_singleton] at hxf
          omega
    · -- values
      have hbl : b ∉ l := by
        obtain ⟨-, -, hdisj⟩ := List.nodup_append.mp hnd
        exact fun hb => hdisj hb (by simp)
      have hfrl : ∀ x ∈ l, x < s.fresh := fun x hx => hfr x (by simp [hx])
      show valsOf _ ((l ++ [b]) ++ [s.fresh]) = _
      rw [valsOf, valsOf, List.map_append, List.map_append, List.map_append]
      congr 1
      · congr 1
        · -- untouched prefix l
          apply List.map_congr_left
          intro x hx
          apply valAt_congr_get
          have hxb : x ≠ b := fun hh => hbl (hh ▸ hx)
          have hxf : x ≠ s.fresh := Nat.ne_of_lt (hfrl x hx)
          rw [hget_hset, if_neg hxb, hget_hset, if_neg hxf]
        · -- node b keeps its value
          show [valAt _ b] = [valAt s.heap b]
          have : valAt (hset (hset s.heap s.fresh ⟨v, some b, none⟩) b
              { ndb with next := some s.fresh }) b = ndb.t := by
            unfold valAt
            rw [hget_hset, if_pos rfl]
          rw [this]
          unfold valAt
          rw [hgb]
      · -- the new node holds v
        show [valAt _ s.fresh] = [v]
        unfold valAt
        rw [hget_hset, if_neg (Ne.symm hbne), hget_hset, if_pos rfl]

/-- Effect of `pop_back` on a non-empty well-formed chain: it succeeds and
drops the last node. -/
theorem pop_back_chain (s : list α) (as : List Nat) (h : chainOf s as)
    (hne : as ≠ []) :
    ∃ s', s.pop_back = some s' ∧ chainOf s' as.dropLast ∧
      s'.sz = s.sz - 1 ∧ s'.fresh = s.fresh ∧
      valsOf s'.heap as.dropLast = (valsOf s.heap as).dropLast := by
  obtain ⟨hd, hnd, hlen, hfr⟩ := h
  obtain ⟨l, b, hlb⟩ := (List.eq_nil_or_concat as).resolve_left hne
  have has : as = l ++ [b] := hlb.trans (List.concat_eq_append l b)
  clear hlb
  subst has
  obtain ⟨pm, cm, hseg1, hseg2⟩ :=
    (dseg_append_iff s.heap l [b] none s.head s.tail none).mp hd
  rw [dseg_cons_iff] at hseg2
  obtain ⟨hcm, ndb, hgb, hpb, hrest⟩ := hseg2
  obtain ⟨hnext, htail⟩ := (dseg_nil_iff _ _ _ _ _).mp hrest
  have htail' : s.tail = some b := htail.symm
  have hsz : l.length + 1 = s.sz := by simpa using hlen
  by_cases h1 : s.sz = 1
  · -- single node: delete it, null both ends
    have hlnil : l = [] := List.length_eq_zero.mp (by omega)
    subst hlnil
    have hstep : s.pop_back = some
        ({ heap := hdel s.heap b, head := none, tail := none
           sz := s.sz - 1, fresh := s.fresh } : list α) := by
      rw [list.pop_back, if_neg (by omega), if_pos h1, htail']
      rw [show deleteP s.heap (some b) = some (hdel s.heap b) by
        show (if (hget s.heap b).isSome = true then some (hdel s.heap b) else none)
          = some (hdel s.heap b)
        rw [hgb]
        rfl]
      rfl
    rw [show (([] : List Nat) ++ [b]).dropLast = [] from rfl]
    refine ⟨_, hstep, ⟨?_, by simp, ?_, by simp⟩, rfl, rfl, ?_⟩
    · rw [dseg_nil_iff]
      exact ⟨rfl, rfl⟩
    · show ([] : List Nat).length = s.sz - 1
      simp [h1]
    · simp [valsOf]
  · -- at least two nodes
    have hlne : l ≠ [] := by
      intro hh
      rw [hh] at hsz
      simp at hsz
      omega
    obtain ⟨l', p, hlb'⟩ := (List.eq_nil_or_concat l).resolve_left hlne
    have hl : l = l' ++ [p] := hlb'.trans (List.concat_eq_append l' p)
    clear hlb'
    subst hl
    obtain ⟨pm2, cm2, hseg1a, hseg1b⟩ :=
      (dseg_append_iff s.heap l' [p] none s.head pm cm).mp hseg1
    rw [dseg_cons_iff] at hseg1b
    obtain ⟨hcm2, ndp, hgp, hppv, hrestp⟩ := hseg1b
    obtain ⟨hnextp, hpm⟩ := (dseg_nil_iff _ _ _ _ _).mp hrestp
    have hprevb : ndb.prev = some p := by rw [hpb, ← hpm]
    have hnextb : ndp.next = some b := by rw [hnextp, hcm]
    -- distinctness
    obtain ⟨hndl, -, hdisj⟩ := List.nodup_append.mp hnd
    have hpb_ne : p ≠ b := by
      intro hh
      exact hdisj (show p ∈ l' ++ [p] by simp) (show p ∈ [b] by simp [hh])
    have hbl : b ∉ l' ++ [p] := by
      intro hh
      exact hdisj hh (show b ∈ [b] by simp)
    have hdelq : deleteP s.heap (some b) = some (hdel s.heap b) := by
      show (if (hget s.heap b).isSome = true then some (hdel s.heap b) else none)
        = some (hdel s.heap b)
      rw [hgb]
      rfl
    have hsetq : setNextF (hdel s.heap b) p none
        = some (hset (hdel s.heap b) p { ndp with next := none }) := by
      unfold setNextF
      rw [hget_hdel, if_neg hpb_ne, hgp]
      rfl
    have hstep : s.pop_back = some
        ({ heap := hset (hdel s.heap b) p { ndp with next := none }
           head := s.head, tail := some p
           sz := s.sz - 1, fresh := s.fresh } : list α) := by
      rw [list.pop_back, if_neg (by omega), if_neg h1, htail']
      simp only [readNode, Option.bind_eq_bind, Option.some_bind, hgb, hprevb,
        hgp, hnextb, hdelq, hsetq]
    -- frame facts
    have hframe : ∀ x ∈ l', hget (hset (hdel s.heap b) p { ndp with next := none }) x
        = hget s.heap x := by
      intro x hx
      have hxp : x ≠ p := fun hh => (List.nodup_append.mp hndl).2.2 (hh ▸ hx) (by simp)
      have hxb : x ≠ b := fun hh => hbl (hh ▸ (by simp [hx] : x ∈ l' ++ [p]))
      rw [hget_hset, if_neg hxp, hget_hdel, if_neg hxb]
    have hgp2 : hget (hset (hdel s.heap b) p { ndp with next := none }) p
        = some { ndp with next := none } := by
      rw [hget_hset, if_pos rfl]
    have hdrop : ((l' ++ [p]) ++ [b]).dropLast = l' ++ [p] := List.dropLast_concat ..
    rw [hdrop]
    refine ⟨_, hstep, ⟨?_, hndl, ?_, ?_⟩, rfl, rfl, ?_⟩
    · -- the chain
      show dseg _ none s.head (l' ++ [p]) (some p) none = true
      rw [dseg_append_iff]
      refine ⟨pm2, cm2, ?_, ?_⟩
      · rw [dseg_congr _ _ l' hframe]
        exact hseg1a
      · rw [dseg_cons_iff]
        refine ⟨hcm2, { ndp with next := none }, hgp2, hppv, ?_⟩
        rw [dseg_nil_iff]
        exact ⟨rfl, rfl⟩
    · show (l' ++ [p]).length = s.sz - 1
      simp only [List.length_append, List.length_singleton] at *
      omega
    · intro x hx
      show x < s.fresh
      exact hfr x (List.mem_append.mpr (Or.inl hx))
    · -- values
      show valsOf _ (l' ++ [p]) = (valsOf s.heap ((l' ++ [p]) ++ [b])).dropLast
      rw [show valsOf s.heap ((l' ++ [p]) ++ [b])
            = valsOf s.heap (l' ++ [p]) ++ [valAt s.heap b] by
        rw [valsOf, valsOf, List.map_append]; rfl]
      rw [List.dropLast_concat]
      apply valsOf_congr
      intro x hx
      rcases List.mem_append.mp hx with hxl | hxp
      · exact valAt_congr_get _ _ _ (hframe x hxl)
      · rw [List.mem_singleton] at hxp
        subst hxp
        unfold valAt
        rw [hgp2, hgp]

/-- `pop_back` on an empty list is a no-op (the `empty()` guard). -/
theorem pop_back_empty (s : list α) (h : s.sz = 0) : s.pop_back = some s := by
  rw [list.pop_back, if_pos h]

/-- Effect of `k` consecutive `push_back`s on a well-formed chain. -/
theorem pushN_chain (k : Nat) (s : list α) (as : List Nat) (val : α)
    (h : chainOf s as) :
    ∃ s' as', list.pushN k s val = some s' ∧ chainOf s' as' ∧
      s'.sz = s.sz + k ∧
      valsOf s'.heap as' = valsOf s.heap as ++ List.replicate k val := by
  induction k generalizing s as with
  | zero => exact ⟨s, as, rfl, h, rfl, by simp⟩
  | succ k ih =>
    obtain ⟨s1, hstep, hchain, hsz, hfresh, -, hvals⟩ := push_back_chain s as val h
    obtain ⟨s', as', hrun, hchain', hsz', hvals'⟩ := ih s1 (as ++ [s.fresh]) hchain
    refine ⟨s', as', ?_, hchain', by omega, ?_⟩
    · show (s.push_back val).bind (fun s1 => list.pushN k s1 val) = some s'
      rw [hstep, Option.some_bind]
      exact hrun
    · rw [hvals', hvals, List.append_assoc]
      congr 1

/-- Effect of `k` consecutive `pop_back`s on a well-formed chain with at
least `k` nodes. -/
theorem popN_chain (k : Nat) (s : list α) (as : List Nat)
    (h : chainOf s as) (hk : k ≤ s.sz) :
    ∃ s' as', list.popN k s = some s' ∧ chainOf s' as' ∧
      s'.sz = s.sz - k ∧
      valsOf s'.heap as' = (valsOf s.heap as).take (s.sz - k) := by
  induction k generalizing s as with
  | zero =>
    refine ⟨s, as, rfl, h, rfl, ?_⟩
    have hlv : (valsOf s.heap as).length = s.sz := by
      rw [valsOf, List.length_map, h.2.2.1]
    rw [Nat.sub_zero, List.take_of_length_le (by omega)]
  | succ k ih =>
    have hne : as ≠ [] := by
      intro hh
      rw [hh] at h
      have := h.2.2.1
      simp at this
      omega
    obtain ⟨s1, hstep, hchain, hsz, hfresh, hvals⟩ := pop_back_chain s as h hne
    obtain ⟨s', as', hrun, hchain', hsz', hvals'⟩ := ih s1 as.dropLast hchain (by omega)
    refine ⟨s', as', ?_, hchain', by omega, ?_⟩
    · show s.pop_back.bind (fun s1 => list.popN k s1) = some s'
      rw [hstep, Option.some_bind]
      exact hrun
    · rw [hvals', hvals, hsz]
      have hlv : (valsOf s.heap as).length = s.sz := by
        rw [valsOf, List.length_map, h.2.2.1]
      rw [List.dropLast_eq_take, hlv, List.take_take]
      congr 1
      omega

/-- Effect of `resize(n, val)` on a well-formed chain: it succeeds, sets the
size to exactly `n`, keeps the first `min n sz` values, and fills new slots
(if growing) with `val`. -/
theorem resize_chain (s : list α) (as : List Nat) (n : Nat) (val : α)
    (h : chainOf s as) :
    ∃ s' as', s.resize n val = some s' ∧ chainOf s' as' ∧ s'.sz = n ∧
      valsOf s'.heap as' = (valsOf s.heap as).take n
        ++ List.replicate (n - s.sz) val := by
  obtain ⟨s1, as1, hpush, hchain1, hsz1, hvals1⟩ :=
    pushN_chain (n - s.sz) s as val h
  obtain ⟨s', as', hpop, hchain', hsz', hvals'⟩ :=
    popN_chain (s1.sz - n) s1 as1 hchain1 (by omega)
  refine ⟨s', as', ?_, hchain', by omega, ?_⟩
  · show (list.pushN (n - s.sz) s val).bind (fun s1 => list.popN (s1.sz - n) s1) = some s'
    rw [hpush, Option.some_bind]
    exact hpop
  · rw [hvals', hvals1]
    have hlv : (valsOf s.heap as).length = s.sz := by
      rw [valsOf, List.length_map, h.2.2.1]
    rcases Nat.le_total n s.sz with hle | hle
    · have h0 : n - s.sz = 0 := by omega
      rw [h0]
      simp only [List.replicate, List.append_nil]
      congr 1
      omega
    · have hA : s1.sz - (s1.sz - n) = n := by omega
      rw [hA,
        List.take_of_length_le (by rw [List.length_append, List.length_replicate, hlv]; omega),
        List.take_of_length_le (by rw [hlv]; omega)]

end listOpLemmas

section listClaims

variable {α : Type} [Inhabited α]

/-- The one-node list `[1]`, as built by `push_back(1)` on an empty list. -/
def exList1 : list Nat :=
  { heap := [(0, ⟨1, none, none⟩)], head := some 0, tail := some 0
    sz := 1, fresh := 1 }

/-- The two-node list `[10, 20]`, as built by two `push_back`s. -/
def exList2 : list Nat :=
  { heap := [(0, ⟨10, none, some 1⟩), (1, ⟨20, some 0, none⟩)]
    head := some 0, tail := some 1, sz := 2, fresh := 2 }

/-- The three-node list `[10, 20, 30]`, as built by three `push_back`s. -/
def exList3 : list Nat :=
  { heap := [(0, ⟨10, none, some 1⟩), (1, ⟨20, some 0, some 2⟩),
             (2, ⟨30, some 1, none⟩)]
    head := some 0, tail := some 2, sz := 3, fresh := 3 }

/-- C2 — the loop of `clear()` (`for (it = begin(); it != end(); ++it)
pop_front();`) increments an iterator whose node was just freed by
`pop_front()`: a use-after-free read, i.e. undefined behavior, on every
non-empty list.  Evaluated at the one-element list `[1]` (shown to be exactly
what `push_back(1)` on a fresh empty list builds, and a well-formed chain):
the strict-memory model flags the read of the freed node, so `clear` has no
defined result — it does not preserve the invariant as the claim states.  The
destructor's loop (`while (sz > 0) pop_front();`) and the spec's description
of `clear` avoid the iterator and are free of this defect. -/
theorem clear_reads_freed_node :
    list.push_back (list.new : list Nat) 1 = some exList1 ∧
    chainOf exList1 [0] ∧
    exList1.clear = none := by
  refine ⟨by decide, by decide, by decide⟩

/-- C8 — counterexample to the claim as stated: in the two-node list
`[10, 20]` the iterator at the node holding `20` is neither `begin()` (the
first node holds `10`) nor `end()` (it is not null), so the claim calls it
interior and predicts a successful removal; but that node's `next` is null,
and `erase` executes `i.n->next->prev = i.n->prev` — a null-pointer
dereference, so the operation has no defined result (in particular it does
not produce the sequence `[10]` with size 1). -/
theorem erase_last_node_undefined :
    (list.push_back (list.new : list Nat) 10).bind (fun s => s.push_back 20)
      = some exList2 ∧
    chainOf exList2 [0, 1] ∧
    some 1 ≠ exList2.head ∧ (some 1 : Option Nat) ≠ none ∧
    exList2.erase (some 1) = none := by
  refine ⟨by decide, by decide, by decide, by decide, by decide⟩

/-- C8 (amended) — the claim as frozen admits any node that is neither the
first node nor the end sentinel, but erasing the *last* node via its iterator
executes `i.n->next->prev = ...` on the null `next` pointer (see the
counterexample).  Amended to nodes with both a live predecessor `p` and a live
successor `q`: `erase` then succeeds, removes exactly that node, relinks the
two neighbors to each other, leaves `head`/`tail` in place, and decrements
`size` by 1; the remaining values are the old ones with the erased entry
dropped.  Instantiated at the list `[10, 20, 30]` with the iterator at `20`
this yields `[10, 30]` with size 2 (see the witness). -/
theorem erase_interior_relinks (s : list α) (l₁ : List Nat) (p a q : Nat)
    (l₂ : List Nat) (h : chainOf s (l₁ ++ p :: a :: q :: l₂)) :
    ∃ s', s.erase (some a) = some s' ∧
      chainOf s' (l₁ ++ p :: q :: l₂) ∧
      s'.sz = s.sz - 1 ∧ s'.head = s.head ∧ s'.tail = s.tail ∧
      valsOf s'.heap (l₁ ++ p :: q :: l₂)
        = valsOf s.heap (l₁ ++ [p]) ++ valsOf s.heap (q :: l₂) := by
  obtain ⟨hd, hnd, hlen, hfr⟩ := h
  -- distinctness of the five chain regions
  obtain ⟨hnd1, hnd2, hdisj⟩ := List.nodup_append.mp hnd
  obtain ⟨hp_nm, hnd3⟩ := List.nodup_cons.mp hnd2
  obtain ⟨ha_nm, hnd4⟩ := List.nodup_cons.mp hnd3
  obtain ⟨hq_nm, hnd5⟩ := List.nodup_cons.mp hnd4
  have hpa : p ≠ a := fun hh => hp_nm (by simp [hh])
  have hpq : p ≠ q := fun hh => hp_nm (by simp [hh])
  have haq : a ≠ q := fun hh => ha_nm (by simp [hh])
  have hal1 : a ∉ l₁ := by
    intro hh
    exact hdisj hh (show a ∈ p :: a :: q :: l₂ by simp)
  -- unfold the chain around p, a, q
  obtain ⟨pm, cm, hseg1, hseg2⟩ :=
    (dseg_append_iff s.heap l₁ (p :: a :: q :: l₂) none s.head s.tail none).mp hd
  rw [dseg_cons_iff] at hseg2
  obtain ⟨hcm, ndp, hgp, hppv, hseg3⟩ := hseg2
  rw [dseg_cons_iff] at hseg3
  obtain ⟨hpn, nda, hga, hprev_a, hseg4⟩ := hseg3
  rw [dseg_cons_iff] at hseg4
  obtain ⟨han, ndq, hgq, hprev_q, hseg5⟩ := hseg4
  -- the iterator is not begin()
  have hhead : ¬ (some a = s.head) := by
    cases l₁ with
    | nil =>
      obtain ⟨hc, -⟩ := (dseg_nil_iff _ _ _ _ _).mp hseg1
      intro hh
      rw [hc, hcm] at hh
      exact hpa (Option.some.inj hh).symm
    | cons x l₁' =>
      rw [dseg_cons_iff] at hseg1
      obtain ⟨hcx, -⟩ := hseg1
      intro hh
      rw [hcx] at hh
      exact hal1 ((Option.some.inj hh) ▸ (by simp : x ∈ x :: l₁'))
  -- evaluate erase
  have hset1 : setPrevF s.heap q (some p)
      = some (hset s.heap q { ndq with prev := some p }) := by
    unfold setPrevF
    rw [hgq]
    rfl
  have hget2 : hget (hset s.heap q { ndq with prev := some p }) a = some nda := by
    rw [hget_hset, if_neg haq, hga]
  have hset2 : setNextF (hset s.heap q { ndq with prev := some p }) p (some q)
      = some (hset (hset s.heap q { ndq with prev := some p }) p
          { ndp with next := some q }) := by
    unfold setNextF
    rw [hget_hset, if_neg hpq, hgp]
    rfl
  have hdelq : deleteP (hset (hset s.heap q { ndq with prev := some p }) p
        { ndp with next := some q }) (some a)
      = some (hdel (hset (hset s.heap q { ndq with prev := some p }) p
          { ndp with next := some q }) a) := by
    show (if (hget (hset (hset s.heap q { ndq with prev := some p }) p
        { ndp with next := some q }) a).isSome = true then _ else none) = _
    rw [hget_hset, if_neg (fun hh : a = p => hpa hh.symm), hget_hset,
      if_neg haq, hga]
    rfl
  have hstep : s.erase (some a) = some
      ({ heap := hdel (hset (hset s.heap q { ndq with prev := some p }) p
             { ndp with next := some q }) a
         head := s.head, tail := s.tail
         sz := s.sz - 1, fresh := s.fresh } : list α) := by
    rw [list.erase, if_neg hhead, if_neg (by simp)]
    simp only [Option.bind_eq_bind, Option.some_bind, hga, han, hprev_a,
      hset1, hget2, hset2, hdelq]
  -- frame for untouched addresses
  have hframe : ∀ x, x ≠ a → x ≠ p → x ≠ q →
      hget (hdel (hset (hset s.heap q { ndq with prev := some p }) p
          { ndp with next := some q }) a) x = hget s.heap x := by
    intro x hxa hxp hxq
    rw [hget_hdel, if_neg hxa, hget_hset, if_neg hxp, hget_hset, if_neg hxq]
  have hframe1 : ∀ x ∈ l₁, hget (hdel (hset (hset s.heap q
        { ndq with prev := some p }) p { ndp with next := some q }) a) x
      = hget s.heap x := by
    intro x hx
    refine hframe x (fun hh => hal1 (hh ▸ hx)) (fun hh => ?_) (fun hh => ?_)
    · exact hdisj (hh ▸ hx) (show p ∈ p :: a :: q :: l₂ by simp)
    · exact hdisj (hh ▸ hx) (show q ∈ p :: a :: q :: l₂ by simp)
  have hframe2 : ∀ x ∈ l₂, hget (hdel (hset (hset s.heap q
        { ndq with prev := some p }) p { ndp with next := some q }) a) x
      = hget s.heap x := by
    intro x hx
    refine hframe x (fun hh => ?_) (fun hh => ?_) (fun hh => ?_)
    · exact ha_nm (by simp [hh ▸ hx])
    · exact hp_nm (by simp [hh ▸ hx])
    · exact hq_nm (hh ▸ hx)
  have hgp3 : hget (hdel (hset (hset s.heap q { ndq with prev := some p }) p
        { ndp with next := some q }) a) p = some { ndp with next := some q } := by
    rw [hget_hdel, if_neg hpa, hget_hset, if_pos rfl]
  have hgq3 : hget (hdel (hset (hset s.heap q { ndq with prev := some p }) p
        { ndp with next := some q }) a) q = some { ndq with prev := some p } := by
    rw [hget_hdel, if_neg (fun hh : q = a => haq hh.symm), hget_hset,
      if_neg (fun hh : q = p => hpq hh.symm), hget_hset, if_pos rfl]
  refine ⟨_, hstep, ⟨?_, ?_, ?_, ?_⟩, rfl, rfl, rfl, ?_⟩
  · -- the relinked chain
    show dseg _ none s.head (l₁ ++ p :: q :: l₂) s.tail none = true
    rw [dseg_append_iff]
    refine ⟨pm, cm, ?_, ?_⟩
    · rw [dseg_congr _ _ l₁ hframe1]
      exact hseg1
    · rw [dseg_cons_iff]
      refine ⟨hcm, { ndp with next := some q }, hgp3, hppv, ?_⟩
      rw [dseg_cons_iff]
      refine ⟨rfl, { ndq with prev := some p }, hgq3, rfl, ?_⟩
      show dseg _ (some q) ndq.next l₂ s.tail none = true
      rw [dseg_congr _ _ l₂ hframe2]
      exact hseg5
  · -- still duplicate-free (a sublist of the original chain)
    have hsub : (l₁ ++ p :: q :: l₂).Sublist (l₁ ++ p :: a :: q :: l₂) :=
      List.Sublist.append_left
        (List.Sublist.cons₂ p (List.Sublist.cons a (List.Sublist.refl (q :: l₂)))) l₁
    exact List.Nodup.sublist hsub hnd
  · show (l₁ ++ p :: q :: l₂).length = s.sz - 1
    simp only [List.length_append, List.length_cons] at *
    omega
  · intro x hx
    show x < s.fresh
    have hsub : (l₁ ++ p :: q :: l₂).Sublist (l₁ ++ p :: a :: q :: l₂) :=
      List.Sublist.append_left
        (List.Sublist.cons₂ p (List.Sublist.cons a (List.Sublist.refl (q :: l₂)))) l₁
    exact hfr x (hsub.subset hx)
  · -- values: the chain value list loses exactly a's entry
    show valsOf _ (l₁ ++ p :: q :: l₂) = _
    rw [valsOf, valsOf, valsOf, List.map_append, List.map_append]
    rw [show ((p :: q :: l₂).map (valAt (hdel (hset (hset s.heap q
          { ndq with prev := some p }) p { ndp with next := some q }) a)))
        = valAt (hdel (hset (hset s.heap q { ndq with prev := some p }) p
            { ndp with next := some q }) a) p
          :: valAt (hdel (hset (hset s.heap q { ndq with prev := some p }) p
            { ndp with next := some q }) a) q
          :: (l₂.map (valAt (hdel (hset (hset s.heap q
            { ndq with prev := some p }) p { ndp with next := some q }) a)))
        from rfl]
    have hvp : valAt (hdel (hset (hset s.heap q { ndq with prev := some p }) p
        { ndp with next := some q }) a) p = valAt s.heap p := by
      unfold valAt
      rw [hgp3, hgp]
    have hvq : valAt (hdel (hset (hset s.heap q { ndq with prev := some p }) p
        { ndp with next := some q }) a) q = valAt s.heap q := by
      unfold valAt
      rw [hgq3, hgq]
    rw [hvp, hvq]
    rw [List.map_congr_left (fun x hx => valAt_congr_get _ _ _ (hframe1 x hx))]
    rw [List.map_congr_left (fun x hx => valAt_congr_get _ _ _ (hframe2 x hx))]
    simp

/-- Witness for the amended C8 at the list `[10, 20, 30]`, erasing the node
that holds `20`: the result is defined, holds the values `[10, 30]` along its
chain, and has size 2. -/
theorem erase_interior_relinks_witness :
    (((list.push_back (list.new : list Nat) 10).bind
        (fun s => s.push_back 20)).bind (fun s => s.push_back 30))
      = some exList3 ∧
    chainOf exList3 ([] ++ 0 :: 1 :: 2 :: []) ∧
    (∃ s', exList3.erase (some 1) = some s' ∧
      chainOf s' ([] ++ 0 :: 2 :: []) ∧
      s'.sz = exList3.sz - 1 ∧ s'.head = exList3.head ∧ s'.tail = exList3.tail ∧
      valsOf s'.heap ([] ++ 0 :: 2 :: [])
        = valsOf exList3.heap ([] ++ [0]) ++ valsOf exList3.heap (2 :: [])) ∧
    (exList3.erase (some 1)).map (fun s' => valsOf s'.heap [0, 2])
      = some [10, 30] ∧
    (exList3.erase (some 1)).map list.sz = some 2 := by
  refine ⟨by decide, by decide,
    erase_interior_relinks exList3 [] 0 1 2 [] (by decide), by decide, by decide⟩

/-- C10: on a non-empty list, `erase(end())` is well-defined: the null
iterator is not `begin()` (the head pointer is non-null) but equals `end()`,
so the call delegates to `pop_back`, which succeeds, removes the last
element, and decrements the size by 1. -/
theorem erase_end_pops_last (s : list α) (as : List Nat) (h : chainOf s as)
    (hne : as ≠ []) :
    s.erase none = s.pop_back ∧
    ∃ s', s.erase none = some s' ∧ s'.sz = s.sz - 1 ∧
      chainOf s' as.dropLast ∧
      valsOf s'.heap as.dropLast = (valsOf s.heap as).dropLast := by
  have hhead : ∃ a0, s.head = some a0 := by
    cases as with
    | nil => exact absurd rfl hne
    | cons a0 as' =>
      have hc := h.1
      rw [dseg_cons_iff] at hc
      exact ⟨a0, hc.1⟩
  obtain ⟨a0, ha0⟩ := hhead
  have heq : s.erase none = s.pop_back := by
    rw [list.erase, if_neg (by rw [ha0]; simp), if_pos rfl]
  obtain ⟨s', hstep, hchain, hsz, -, hvals⟩ := pop_back_chain s as h hne
  refine ⟨heq, s', ?_, hsz, hchain, hvals⟩
  rw [heq]
  exact hstep

/-- Witness for C10 at the two-node list `[10, 20]`. -/
theorem erase_end_pops_last_witness :
    chainOf exList2 [0, 1] ∧ ([0, 1] : List Nat) ≠ [] ∧
    (exList2.erase none = exList2.pop_back ∧
      ∃ s', exList2.erase none = some s' ∧ s'.sz = exList2.sz - 1 ∧
        chainOf s' ([0, 1] : List Nat).dropLast ∧
        valsOf s'.heap ([0, 1] : List Nat).dropLast
          = (valsOf exList2.heap [0, 1]).dropLast) := by
  refine ⟨by decide, by decide,
    erase_end_pops_last exList2 [0, 1] (by decide) (by decide)⟩

/-- C9: for both containers, `resize(n)` followed by `resize` back to the
original size restores the original size; and a growing `resize` fills every
newly added slot with the default value (for the array: the slots from the
old size up to `n`; for the list: the appended chain values).  The list
clause also records that the intermediate values are the original ones
truncated to `n` plus default padding — removed values are not restored. -/
theorem resize_roundtrip (v : vector α) (s : list α) (as : List Nat)
    (n m : Nat) (hv : Vwf v) (hs : chainOf s as) :
    ((vector.resize (vector.resize v n default) v.sz default).sz = v.sz ∧
      (∀ i, v.sz ≤ i → i < n →
        (vector.resize v n default).t.getD i default = default)) ∧
    (∃ s1 s2, s.resize m default = some s1 ∧ s1.resize s.sz default = some s2 ∧
      s2.sz = s.sz ∧
      ∃ as1, chainOf s1 as1 ∧
        valsOf s1.heap as1 = (valsOf s.heap as).take m
          ++ List.replicate (m - s.sz) default) := by
  constructor
  · constructor
    · rw [vector.resize_sz]
    · intro i h1 h2
      have h0 : v.sz - n = 0 := by omega
      rw [vector.resize, h0]
      show (vector.pushK v default (n - v.sz)).t.getD i default = default
      exact vector.pushK_getD v default default (n - v.sz) i hv h1 (by omega)
  · obtain ⟨s1, as1, hr1, hc1, hsz1, hv1⟩ := resize_chain s as m default hs
    obtain ⟨s2, as2, hr2, hc2, hsz2, -⟩ := resize_chain s1 as1 s.sz default hc1
    exact ⟨s1, s2, hr1, hr2, hsz2, as1, hc1, hv1⟩

/-- Witness for C9: a concrete vector of size 2 resized to 4 and back, and
the concrete one-element list resized to 3 and back. -/
theorem resize_roundtrip_witness :
    Vwf (vector.make 2 (5 : Nat)) ∧ chainOf exList1 [0] ∧
    (((vector.resize (vector.resize (vector.make 2 (5 : Nat)) 4 default)
          (vector.make 2 (5 : Nat)).sz default).sz = (vector.make 2 (5 : Nat)).sz ∧
      (∀ i, (vector.make 2 (5 : Nat)).sz ≤ i → i < 4 →
        (vector.resize (vector.make 2 (5 : Nat)) 4 default).t.getD i default
          = default)) ∧
    (∃ s1 s2, exList1.resize 3 default = some s1 ∧
      s1.resize exList1.sz default = some s2 ∧
      s2.sz = exList1.sz ∧
      ∃ as1, chainOf s1 as1 ∧
        valsOf s1.heap as1 = (valsOf exList1.heap [0]).take 3
          ++ List.replicate (3 - exList1.sz) default)) := by
  refine ⟨by decide, by decide,
    resize_roundtrip (vector.make 2 (5 : Nat)) exList1 [0] 4 3 (by decide)
      (by decide)⟩

end listClaims

end mystl
